import Mathlib

/-!
Shallow embedding of the multimarkov variable-order Markov model library
(src/lib.rs) and verification of its specification.

Modelling choices:
* HashMap is modelled as an association list with first-occurrence lookup
  (alookup) and an entry-or-insert combinator (updateEntry) mirroring the
  entry / or_insert API used by the source.
* HashSet is modelled as a duplicate-free list maintained by
  insert-if-absent, compared extensionally (HashSet equality is set
  equality).
* f64 weights are modelled as rationals; the source only adds, fills and
  compares weights, and every concrete weight in the specification (1.0,
  2.0, 0.005) is exact in f64, so rational arithmetic is faithful.
* The private i32 field order is modelled as a natural number: the only
  constructor sets it to the constant 3 and no mutator exists, so it is
  nonnegative in every reachable model; list indices are mathematical
  naturals (index arithmetic in the source cannot overflow for any input
  a process can hold in memory).
* The random number generator of random_next is an injected uniform draw
  r; the source draws r from thread_rng and multiplies by the weight sum.
-/

namespace MultiMarkov

/-- First-occurrence lookup in an association list; models HashMap get /
contains_key of the source. -/
def alookup {K V : Type} [DecidableEq K] : List (K × V) → K → Option V
  | [], _ => none
  | (k', v') :: rest, k => if k = k' then some v' else alookup rest k

/-- Models the HashMap entry API of the source: rewrite the value seen at a
key through lookup, appending a fresh entry when the key is absent. -/
def updateEntry {K V : Type} [DecidableEq K] : List (K × V) → K → (Option V → V) → List (K × V)
  | [], k, f => [(k, f none)]
  | (k', v') :: rest, k, f =>
      if k = k' then (k, f (some v')) :: rest else (k', v') :: updateEntry rest k f

/-- Distribution: mapping from a symbol to its f64 weight
(HashMap of T to f64 in the source). -/
abbrev Dist (T : Type) := List (T × ℚ)

/-- FrequencyTable: mapping from a context (Vec of T) to a Distribution. -/
abbrev FreqTable (T : Type) := List (List T × Dist T)

/-- The model struct of src/lib.rs: frequencies, known_states and the
private order field (i32 in the source, always the nonnegative constant 3).
The HashSet known_states is modelled as a duplicate-free list maintained by
insert-if-absent; like the HashMap it is compared extensionally (by
membership), which is HashSet equality. -/
structure MultiMarkovModel (T : Type) where
  frequencies : FreqTable T
  known_states : List T
  order : ℕ
deriving DecidableEq

variable {T : Type} [DecidableEq T]

def DEFAULT_ORDER : ℕ := 3

/-- 0.005 in the source. -/
def DEFAULT_PRIOR : ℚ := 1 / 200

/-- MultiMarkovModel::new of the source: empty tables, order fixed to
DEFAULT_ORDER.  The constructor takes no argument and the order field is
private with no setter. -/
def new : MultiMarkovModel T :=
  { frequencies := [], known_states := [], order := DEFAULT_ORDER }

/-- One execution of the statement
frequencies.entry(ctx).or_insert(new HashMap).entry(sym).or_insert(0.0) += 1.0
of add_sequence (line 79 of the source). -/
def addTransition (ft : FreqTable T) (ctx : List T) (sym : T) : FreqTable T :=
  updateEntry ft ctx
    (fun d? => updateEntry (d?.getD []) sym (fun w? => w?.getD 0 + 1))

/-- The nested weight seen through both lookups. -/
def weightOf (ft : FreqTable T) (ctx : List T) (sym : T) : Option ℚ :=
  (alookup ft ctx).bind (fun d => alookup d sym)

/-- The loop of add_sequence, for i in (1..sequence.len()).rev():
insert sequence[i] into known_states, then for j in max(0,i-order)..i
record that sequence[i] follows the context sequence[j..i].  The counter
argument is the current position i; positions i, i-1, ..., 1 remain to be
processed.  The none branch of the match is unreachable for the actual
calls, where the counter starts at sequence.len()-1. -/
def trainLoop (order : ℕ) (seq : List T) :
    ℕ → FreqTable T × List T → FreqTable T × List T
  | 0, st => st
  | (i+1), st =>
    match seq[i+1]? with
    | none => trainLoop order seq i st
    | some si =>
      let ft' := (List.range' (i + 1 - order) (min (i+1) order)).foldl
          (fun acc j => addTransition acc ((seq.drop j).take (i + 1 - j)) si) st.1
      trainLoop order seq i (ft', st.2.insert si)

/-- add_sequence of the source (lines 69..84): reject sequences shorter
than two states, otherwise run the training loop from the last index and
finally insert sequence[0] into known_states. -/
def add_sequence (m : MultiMarkovModel T) (seq : List T) :
    Except String (MultiMarkovModel T) :=
  if seq.length < 2 then
    Except.error "sequence was too short, must contain at least two states"
  else
    let st := trainLoop m.order seq (seq.length - 1) (m.frequencies, m.known_states)
    let ks := match seq.head? with
      | some s0 => st.2.insert s0
      | none => st.2
    Except.ok { frequencies := st.1, known_states := ks, order := m.order }

/-- The effect of one iteration of the add_sequences loop: apply
add_sequence, and on error keep the model unchanged (the source prints the
error and continues). -/
def trainStep (m : MultiMarkovModel T) (seq : List T) : MultiMarkovModel T :=
  match add_sequence m seq with
  | Except.ok m' => m'
  | Except.error _ => m

/-- add_sequences of the source (lines 43..54): empty batches are
rejected, otherwise every sequence is fed to add_sequence in turn with
errors ignored. -/
def add_sequences (m : MultiMarkovModel T) (seqs : List (List T)) :
    Except String (MultiMarkovModel T) :=
  if seqs.length < 1 then Except.error "no sequences in input"
  else
    Except.ok (seqs.foldl
      (fun acc s =>
        match add_sequence acc s with
        | Except.ok m' => m'
        | Except.error _ => acc) m)

/-- The inner loop of add_priors: for every known state a, or_insert the
prior into the distribution.  The fold is over some enumeration of the
HashSet; or_insert applications at distinct keys commute, so the
enumeration order is irrelevant to the resulting map. -/
def fillDist (d : Dist T) (states : List T) (prior : ℚ) : Dist T :=
  states.foldl (fun acc a => updateEntry acc a (fun w? => w?.getD prior)) d

/-- add_priors of the source (lines 97..103): for every distribution
already in the table, fill in an entry with weight prior for every known
state that has no entry yet. -/
def add_priors (m : MultiMarkovModel T) (prior : ℚ) : MultiMarkovModel T :=
  { m with frequencies :=
      m.frequencies.map (fun p => (p.1, fillDist p.2 m.known_states prior)) }

/-- The loop of best_model, for i in (1..min(order,len)+1).rev(): look up
the last i symbols of the query; the counter is the candidate suffix
length still to be tried. -/
def bestModelLoop (ft : FreqTable T) (q : List T) : ℕ → Option (Dist T)
  | 0 => none
  | (i+1) =>
    match alookup ft (q.drop (q.length - (i+1))) with
    | some d => some d
    | none => bestModelLoop ft q i

/-- best_model of the source (lines 144..154). -/
def best_model (m : MultiMarkovModel T) (q : List T) : Option (Dist T) :=
  bestModelLoop m.frequencies q (min m.order q.length)

/-- bestmodel.values().sum() of the source. -/
def sum_of_weights (d : Dist T) : ℚ := (d.map Prod.snd).sum

/-- The roulette-wheel loop of random_next: walk the entries, subtracting
weights from the roll until it no longer exceeds the current weight. -/
def rouletteWalk : Dist T → ℚ → Option T
  | [], _ => none
  | (k, v) :: rest, roll => if roll > v then rouletteWalk rest (roll - v) else some k

/-- random_next of the source (lines 107..123), with the uniform draw r of
thread_rng passed in explicitly.  The final None of the source (line 122,
reached only when the walk exhausts the distribution) is the none of
rouletteWalk. -/
def random_next (m : MultiMarkovModel T) (q : List T) (r : ℚ) : Option T :=
  match best_model m q with
  | none => none
  | some d => rouletteWalk d (r * sum_of_weights d)

/-- Recording a list of transitions in order (the fold underlying the
training loops). -/
def applyTrans (ft : FreqTable T) (L : List (List T × T)) : FreqTable T :=
  L.foldl (fun acc p => addTransition acc p.1 p.2) ft

/-! The list of context-to-symbol transitions the training loop records. -/

/-- Transitions recorded at position i of the sequence, in the order of
the inner j loop of add_sequence. -/
def transAt (order : ℕ) (seq : List T) (i : ℕ) : List (List T × T) :=
  match seq[i]? with
  | none => []
  | some si => (List.range' (i - order) (min i order)).map
      (fun j => ((seq.drop j).take (i - j), si))

/-- Transitions recorded at positions i, i-1, ..., 1, in loop order. -/
def transList (order : ℕ) (seq : List T) : ℕ → List (List T × T)
  | 0 => []
  | (i+1) => transAt order seq (i+1) ++ transList order seq i

/-- Number of context lengths k in [1, min(order,i)] for which the k
symbols preceding position i equal ctx and sequence[i] = sym: the
specification counts the increments of add_sequence by the pairs (i, k). -/
def cntAt (order : ℕ) (seq : List T) (ctx : List T) (sym : T) (i : ℕ) : ℕ :=
  if seq[i]? = some sym then
    ((List.range' 1 (min order i)).filter
      (fun k => (seq.drop (i - k)).take k = ctx)).length
  else 0

/-- Total number of increments the specification prescribes for the pair
(ctx, sym) while training on seq: positions i range over the sequence
(position 0 contributes nothing since min(order,0) = 0). -/
def cnt (order : ℕ) (seq : List T) (ctx : List T) (sym : T) : ℕ :=
  ((List.range seq.length).map (cntAt order seq ctx sym)).sum

/-! Extensional equality of models: HashMap and HashSet equality is
equality of the maps seen through lookup and membership. -/

def ModelEquiv (m₁ m₂ : MultiMarkovModel T) : Prop :=
  m₁.order = m₂.order ∧
  (∀ a, a ∈ m₁.known_states ↔ a ∈ m₂.known_states) ∧
  (∀ c, (alookup m₁.frequencies c).isSome ↔ (alookup m₂.frequencies c).isSome) ∧
  (∀ c s, weightOf m₁.frequencies c s = weightOf m₂.frequencies c s)

/-! Models reachable from a fresh model by the mutating operations.
trainStep covers an add_sequence call with either outcome: on success the
model becomes the ok value, on SequenceTooShort it is left unchanged.
The parameter P restricts the priors passed to add_priors. -/

inductive Reachable (P : ℚ → Prop) : MultiMarkovModel T → Prop
  | base : Reachable P new
  | train (m : MultiMarkovModel T) (s : List T) :
      Reachable P m → Reachable P (trainStep m s)
  | batch (m : MultiMarkovModel T) (L : List (List T)) (m' : MultiMarkovModel T) :
      Reachable P m → add_sequences m L = Except.ok m' → Reachable P m'
  | smooth (m : MultiMarkovModel T) (prior : ℚ) :
      Reachable P m → P prior → Reachable P (add_priors m prior)

/-! Invariants of reachable frequency tables. -/

/-- Every stored weight is nonnegative and some stored weight is at
least 1 (the one recorded when the distribution was created). -/
def DistOK (d : Dist T) : Prop :=
  (∀ p ∈ d, 0 ≤ p.2) ∧ ∃ p ∈ d, 1 ≤ p.2

def TableOK (ft : FreqTable T) : Prop := ∀ p ∈ ft, DistOK p.2

/-- Every context key has length between 1 and order. -/
def KeysOK (ft : FreqTable T) (order : ℕ) : Prop :=
  ∀ p ∈ ft, 1 ≤ p.1.length ∧ p.1.length ≤ order

/-- Modelled from the spec: the constructor of section 6, new(order?),
building an empty model with the caller's order, defaulting to 3 when the
caller does not specify one.  The source's constructor takes no order
argument at all; this spec-side constructor exists only to state claim C8
as a refinement. -/
def newSpec (o : Option ℕ) : MultiMarkovModel T :=
  { frequencies := [], known_states := [], order := o.getD DEFAULT_ORDER }

/-- A concrete trained model used as an evaluation point: the frequency
table maps context [0] to the distribution giving symbol 1 weight 1. -/
def mC1 : MultiMarkovModel ℕ :=
  { frequencies := [([0], [(1, 1)])], known_states := [0, 1], order := 3 }

/-- A model whose table stores an empty distribution for context [0]
(such a value is constructible because the struct fields are public in the
source); on it the roulette-wheel walk of random_next exhausts the
distribution without selecting a symbol. -/
def exhaustModel : MultiMarkovModel ℕ :=
  { frequencies := [([0], [])], known_states := [], order := 3 }

theorem alookup_updateEntry_self {K V : Type} [DecidableEq K]
    (m : List (K × V)) (k : K) (f : Option V → V) :
    alookup (updateEntry m k f) k = some (f (alookup m k)) := by
  induction m with
  | nil => simp [alookup, updateEntry]
  | cons p rest ih =>
      obtain ⟨k', v'⟩ := p
      by_cases h : k = k'
      · simp [alookup, updateEntry, h]
      · simp [alookup, updateEntry, h, ih]

theorem alookup_updateEntry_ne {K V : Type} [DecidableEq K]
    (m : List (K × V)) (k k₀ : K) (f : Option V → V) (h : k₀ ≠ k) :
    alookup (updateEntry m k f) k₀ = alookup m k₀ := by
  induction m with
  | nil => simp [alookup, updateEntry, h]
  | cons p rest ih =>
      obtain ⟨k', v'⟩ := p
      by_cases hk : k = k'
      · subst hk
        simp [alookup, updateEntry, h]
      · by_cases hk0 : k₀ = k'
        · simp [alookup, updateEntry, hk, hk0]
        · simp [alookup, updateEntry, hk, hk0, ih]

theorem mem_updateEntry {K V : Type} [DecidableEq K]
    {m : List (K × V)} {k : K} {f : Option V → V} {p : K × V}
    (hp : p ∈ updateEntry m k f) : p = (k, f (alookup m k)) ∨ p ∈ m := by
  induction m with
  | nil => simpa [updateEntry, alookup] using hp
  | cons q rest ih =>
      obtain ⟨k', v'⟩ := q
      by_cases h : k = k'
      · subst h
        simp only [updateEntry, if_pos rfl] at hp
        rcases List.mem_cons.mp hp with h1 | h1
        · exact Or.inl (by simp [alookup, h1])
        · exact Or.inr (List.mem_cons_of_mem _ h1)
      · simp only [updateEntry, if_neg h] at hp
        rcases List.mem_cons.mp hp with h1 | h1
        · exact Or.inr (by simp [h1])
        · rcases ih h1 with h2 | h2
          · exact Or.inl (by simp [alookup, if_neg h, h2])
          · exact Or.inr (List.mem_cons_of_mem _ h2)

theorem mem_updateEntry_of_mem {K V : Type} [DecidableEq K]
    {m : List (K × V)} {k : K} {f : Option V → V} {p : K × V}
    (hp : p ∈ m) (hne : p.1 ≠ k) : p ∈ updateEntry m k f := by
  induction m with
  | nil => cases hp
  | cons q rest ih =>
      obtain ⟨k', v'⟩ := q
      by_cases h : k = k'
      · subst h
        rcases List.mem_cons.mp hp with h1 | h1
        · exact absurd (by simp [h1]) hne
        · simp [updateEntry, List.mem_cons_of_mem _ h1]
      · rcases List.mem_cons.mp hp with h1 | h1
        · simp [updateEntry, h, h1]
        · simp [updateEntry, h, List.mem_cons_of_mem _ (ih h1)]

/-- An entry-preserving update (or_insert style) keeps every pair of the list. -/
theorem mem_updateEntry_keep {K V : Type} [DecidableEq K]
    {m : List (K × V)} {k : K} {f : Option V → V} {p : K × V}
    (hf : ∀ w, f (some w) = w) (hp : p ∈ m) : p ∈ updateEntry m k f := by
  induction m with
  | nil => cases hp
  | cons q rest ih =>
      obtain ⟨k', v'⟩ := q
      by_cases h : k = k'
      · subst h
        rcases List.mem_cons.mp hp with h1 | h1
        · simp [updateEntry, h1, hf]
        · simp [updateEntry, List.mem_cons_of_mem _ h1]
      · rcases List.mem_cons.mp hp with h1 | h1
        · simp [updateEntry, h, h1]
        · simp [updateEntry, h, List.mem_cons_of_mem _ (ih h1)]

theorem alookup_mem {K V : Type} [DecidableEq K]
    {m : List (K × V)} {k : K} {v : V} (h : alookup m k = some v) : (k, v) ∈ m := by
  induction m with
  | nil => simp [alookup] at h
  | cons q rest ih =>
      obtain ⟨k', v'⟩ := q
      by_cases hk : k = k'
      · subst hk
        simp [alookup] at h
        simp [h]
      · simp [alookup, hk] at h
        exact List.mem_cons_of_mem _ (ih h)

/-! Effect of a single recorded transition on the nested maps. -/

theorem weightOf_addTransition_self (ft : FreqTable T) (c : List T) (s : T) :
    weightOf (addTransition ft c s) c s = some ((weightOf ft c s).getD 0 + 1) := by
  unfold weightOf addTransition
  rw [alookup_updateEntry_self]
  simp only [Option.some_bind]
  rw [alookup_updateEntry_self]
  cases h : alookup ft c <;> simp [h, alookup]

theorem weightOf_addTransition_ne (ft : FreqTable T) (c : List T) (s : T)
    (c₀ : List T) (s₀ : T) (h : ¬(c₀ = c ∧ s₀ = s)) :
    weightOf (addTransition ft c s) c₀ s₀ = weightOf ft c₀ s₀ := by
  by_cases hc : c₀ = c
  · subst hc
    have hs : s₀ ≠ s := fun hh => h ⟨rfl, hh⟩
    unfold weightOf addTransition
    rw [alookup_updateEntry_self]
    simp only [Option.some_bind]
    rw [alookup_updateEntry_ne _ _ _ _ hs]
    cases hh : alookup ft c₀ <;> simp [hh, alookup]
  · unfold weightOf addTransition
    rw [alookup_updateEntry_ne _ _ _ _ hc]

theorem alookup_addTransition_isSome (ft : FreqTable T) (c : List T) (s : T) (c₀ : List T) :
    (alookup (addTransition ft c s) c₀).isSome ↔ (alookup ft c₀).isSome ∨ c₀ = c := by
  by_cases hc : c₀ = c
  · subst hc
    unfold addTransition
    rw [alookup_updateEntry_self]
    simp
  · unfold addTransition
    rw [alookup_updateEntry_ne _ _ _ _ hc]
    simp [hc]

theorem applyTrans_append (ft : FreqTable T) (L₁ L₂ : List (List T × T)) :
    applyTrans ft (L₁ ++ L₂) = applyTrans (applyTrans ft L₁) L₂ := by
  simp [applyTrans]

/-- The weight of a pair after recording a batch of transitions: each
occurrence of the pair in the batch adds exactly 1, missing entries being
created at 0. -/
theorem weightOf_applyTrans (L : List (List T × T)) (ft : FreqTable T) (c : List T) (s : T) :
    weightOf (applyTrans ft L) c s =
      if L.count (c, s) = 0 then weightOf ft c s
      else some ((weightOf ft c s).getD 0 + L.count (c, s)) := by
  induction L generalizing ft with
  | nil => simp [applyTrans]
  | cons p L ih =>
      obtain ⟨pc, ps⟩ := p
      have step : applyTrans ft ((pc, ps) :: L) = applyTrans (addTransition ft pc ps) L := rfl
      rw [step, ih]
      by_cases hp : (pc, ps) = (c, s)
      · obtain ⟨hc, hs⟩ := Prod.mk.injEq pc ps c s ▸ hp
        subst hc; subst hs
        have hcount : ((pc, ps) :: L).count (pc, ps) = L.count (pc, ps) + 1 := by
          simp [List.count_cons]
        rw [hcount, weightOf_addTransition_self]
        by_cases hL : L.count (pc, ps) = 0
        · simp [hL]
        · have : L.count (pc, ps) + 1 ≠ 0 := by omega
          simp only [hL, if_neg hL, if_neg this, Option.getD_some]
          push_cast
          ring_nf
      · have hcount : ((pc, ps) :: L).count (c, s) = L.count (c, s) := by
          simp [List.count_cons, hp]
        have hne : ¬(c = pc ∧ s = ps) := by
          rintro ⟨rfl, rfl⟩; exact hp rfl
        rw [hcount, weightOf_addTransition_ne _ _ _ _ _ hne]

theorem alookup_applyTrans_isSome (L : List (List T × T)) (ft : FreqTable T) (c : List T) :
    (alookup (applyTrans ft L) c).isSome ↔ (alookup ft c).isSome ∨ ∃ s, (c, s) ∈ L := by
  induction L generalizing ft with
  | nil => simp [applyTrans]
  | cons p L ih =>
      obtain ⟨pc, ps⟩ := p
      have step : applyTrans ft ((pc, ps) :: L) = applyTrans (addTransition ft pc ps) L := rfl
      rw [step, ih, alookup_addTransition_isSome]
      constructor
      · rintro ((h | rfl) | ⟨s, hs⟩)
        · exact Or.inl h
        · exact Or.inr ⟨ps, List.mem_cons_self _ _⟩
        · exact Or.inr ⟨s, List.mem_cons_of_mem _ hs⟩
      · rintro (h | ⟨s, hs⟩)
        · exact Or.inl (Or.inl h)
        · rcases List.mem_cons.mp hs with h1 | h1
          · exact Or.inl (Or.inr (by injection h1.symm with h2 h3; exact h2.symm))
          · exact Or.inr ⟨s, h1⟩

theorem mem_applyTrans (L : List (List T × T)) (ft : FreqTable T) (p : List T × Dist T)
    (hp : p ∈ applyTrans ft L) : p ∈ ft ∨ ∃ q ∈ L, p.1 = q.1 := by
  induction L generalizing ft with
  | nil => exact Or.inl hp
  | cons q L ih =>
      obtain ⟨qc, qs⟩ := q
      have step : applyTrans ft ((qc, qs) :: L) = applyTrans (addTransition ft qc qs) L := rfl
      rw [step] at hp
      rcases ih _ hp with h | ⟨q', hq', hkey⟩
      · rcases mem_updateEntry h with h1 | h1
        · exact Or.inr ⟨(qc, qs), List.mem_cons_self _ _, by simp [h1]⟩
        · exact Or.inl h1
      · exact Or.inr ⟨q', List.mem_cons_of_mem _ hq', hkey⟩

theorem cntAt_zero (order : ℕ) (seq : List T) (ctx : List T) (sym : T) :
    cntAt order seq ctx sym 0 = 0 := by
  simp [cntAt]

/-- Reindexing the inner loop: the source counts contexts by start index
j in [i-order, i), the specification by length k = i - j in
[1, min(order,i)]; the two ranges correspond bijectively. -/
theorem range'_map_sub_perm (i m : ℕ) (h : m ≤ i) :
    ((List.range' 1 m).map (fun k => i - k)).Perm (List.range' (i - m) m) := by
  induction m with
  | zero => simp
  | succ m ih =>
      have hm : m ≤ i := Nat.le_of_succ_le h
      have hconcat : List.range' 1 (m + 1) = List.range' 1 m ++ [1 + m] :=
        List.range'_1_concat 1 m
      have hcons : List.range' (i - (m + 1)) (m + 1)
          = (i - (m + 1)) :: List.range' (i - m) m := by
        have h1 : i - (m + 1) + 1 = i - m := by omega
        rw [List.range'_succ, h1]
      rw [hconcat, hcons, List.map_append]
      refine (List.perm_append_singleton _ _).trans ?_
      have h2 : i - (1 + m) = i - (m + 1) := by omega
      simpa [h2] using (ih hm).cons (i - (m + 1))

theorem count_transAt (order : ℕ) (seq : List T) (c : List T) (s : T) (i : ℕ) :
    (transAt order seq i).count (c, s) = cntAt order seq c s i := by
  unfold transAt cntAt
  cases hget : seq[i]? with
  | none => simp
  | some si =>
      by_cases hs : si = s
      · subst hs
        rw [if_pos rfl]
        set m := min i order with hm
        have hmi : m ≤ i := Nat.min_le_left i order
        have hio : i - order = i - m := by omega
        have hmo : min order i = m := by omega
        rw [List.count_eq_countP, List.countP_map, hio, hmo,
            ← (range'_map_sub_perm i m hmi).countP_eq, List.countP_map,
            ← List.countP_eq_length_filter]
        apply List.countP_congr
        intro k hk
        have hk1 : 1 ≤ k ∧ k < 1 + m := List.mem_range'_1.mp hk
        have hkk : i - (i - k) = k := by omega
        simp [Function.comp, hkk, Prod.ext_iff]
      · simp only [if_neg (fun hh : some si = some s => hs (Option.some.injEq si s ▸ hh))]
        rw [List.count_eq_zero]
        intro hmem
        rcases List.mem_map.mp hmem with ⟨j, _, hj⟩
        exact hs (by injection hj with h1 h2)

theorem count_transList (order : ℕ) (seq : List T) (c : List T) (s : T) :
    ∀ i : ℕ, (transList order seq i).count (c, s)
      = ((List.range (i+1)).map (cntAt order seq c s)).sum
  | 0 => by
      have h1 : List.range 1 = [0] := rfl
      simp [transList, h1, cntAt_zero]
  | (i+1) => by
      rw [transList, List.count_append, count_transAt,
          count_transList order seq c s i, List.range_succ (i+1),
          List.map_append, List.sum_append]
      simp only [List.map_cons, List.map_nil, List.sum_cons, List.sum_nil]
      omega

theorem mem_transList (order : ℕ) (seq : List T) (c : List T) (s : T) :
    ∀ i : ℕ, (c, s) ∈ transList order seq i →
      1 ≤ c.length ∧ c.length ≤ order
  | 0, h => by simp [transList] at h
  | (i+1), h => by
      rcases List.mem_append.mp h with h1 | h1
      · unfold transAt at h1
        cases hget : seq[(i+1)]? with
        | none => rw [hget] at h1; simp at h1
        | some si =>
            rw [hget] at h1
            rcases List.mem_map.mp h1 with ⟨j, hj, hcs⟩
            have hj1 : i + 1 - order ≤ j ∧ j < i + 1 - order + min (i+1) order :=
              List.mem_range'_1.mp hj
            have hi : i + 1 < seq.length := by
              rcases List.getElem?_eq_some_iff.mp hget with ⟨hlt, _⟩
              exact hlt
            have hclen : c = (seq.drop j).take (i + 1 - j) := by
              injection hcs.symm with h1 h2
            have hdrop : (seq.drop j).length = seq.length - j := List.length_drop _ _
            have hlen : c.length = i + 1 - j := by
              rw [hclen, List.length_take, hdrop]
              omega
            omega
      · exact mem_transList order seq c s i h1

/-! The training loop is the fold of addTransition over the transition
list, and inserts exactly the symbols at positions 1..i. -/

theorem trainLoop_fst (order : ℕ) (seq : List T) :
    ∀ (i : ℕ) (ft : FreqTable T) (ks : List T),
      (trainLoop order seq i (ft, ks)).1 = applyTrans ft (transList order seq i)
  | 0, ft, ks => rfl
  | (i+1), ft, ks => by
      cases hget : seq[(i+1)]? with
      | none =>
          simp only [trainLoop, hget]
          rw [trainLoop_fst order seq i]
          simp [transList, transAt, hget]
      | some si =>
          simp only [trainLoop, hget]
          rw [trainLoop_fst order seq i]
          have hft : (List.range' (i + 1 - order) (min (i+1) order)).foldl
              (fun acc j => addTransition acc ((seq.drop j).take (i + 1 - j)) si) ft
              = applyTrans ft (transAt order seq (i+1)) := by
            unfold applyTrans transAt
            rw [hget, List.foldl_map]
          rw [hft, transList, applyTrans_append]

theorem mem_trainLoop_snd (order : ℕ) (seq : List T) :
    ∀ (i : ℕ) (ft : FreqTable T) (ks : List T) (a : T),
      a ∈ (trainLoop order seq i (ft, ks)).2 ↔ a ∈ ks ∨ a ∈ (seq.drop 1).take i
  | 0, ft, ks, a => by simp [trainLoop]
  | (i+1), ft, ks, a => by
      cases hget : seq[(i+1)]? with
      | none =>
          have hlen : seq.length ≤ i + 1 := List.getElem?_eq_none_iff.mp hget
          have hd : (seq.drop 1).length ≤ i := by
            rw [List.length_drop]; omega
          simp only [trainLoop, hget]
          rw [mem_trainLoop_snd order seq i,
              List.take_of_length_le hd, List.take_of_length_le (Nat.le_succ_of_le hd)]
      | some si =>
          simp only [trainLoop, hget]
          rw [mem_trainLoop_snd order seq i]
          have htake : (seq.drop 1).take (i+1) = (seq.drop 1).take i ++ [si] := by
            rw [List.take_succ, List.getElem?_drop]
            have : 1 + i = i + 1 := by omega
            rw [this, hget]
            rfl
          rw [htake, List.mem_insert_iff]
          simp only [List.mem_append, List.mem_singleton]
          tauto

/-! Characterisation of one training call (error skipped) through trainStep. -/

theorem add_sequence_short (m : MultiMarkovModel T) (seq : List T) (h : seq.length < 2) :
    add_sequence m seq
      = Except.error "sequence was too short, must contain at least two states" := by
  unfold add_sequence
  rw [if_pos h]

theorem trainStep_short (m : MultiMarkovModel T) (seq : List T) (h : seq.length < 2) :
    trainStep m seq = m := by
  unfold trainStep
  rw [add_sequence_short m seq h]

theorem add_sequence_eq_ok (m : MultiMarkovModel T) (seq : List T) (h : 2 ≤ seq.length) :
    add_sequence m seq = Except.ok (trainStep m seq) := by
  have hlt : ¬ seq.length < 2 := by omega
  simp only [trainStep, add_sequence, if_neg hlt]

theorem trainStep_order (m : MultiMarkovModel T) (seq : List T) :
    (trainStep m seq).order = m.order := by
  by_cases h : seq.length < 2
  · rw [trainStep_short m seq h]
  · simp only [trainStep, add_sequence, if_neg h]

theorem trainStep_frequencies (m : MultiMarkovModel T) (seq : List T) (h : 2 ≤ seq.length) :
    (trainStep m seq).frequencies
      = applyTrans m.frequencies (transList m.order seq (seq.length - 1)) := by
  have hlt : ¬ seq.length < 2 := by omega
  simp only [trainStep, add_sequence, if_neg hlt]
  exact trainLoop_fst m.order seq (seq.length - 1) m.frequencies m.known_states

theorem mem_trainStep_known_states (m : MultiMarkovModel T) (seq : List T)
    (h : 2 ≤ seq.length) (a : T) :
    a ∈ (trainStep m seq).known_states ↔ a ∈ m.known_states ∨ a ∈ seq := by
  have hlt : ¬ seq.length < 2 := by omega
  obtain ⟨s0, rest, rfl⟩ : ∃ s0 rest, seq = s0 :: rest := by
    cases seq with
    | nil => simp at h
    | cons s0 rest => exact ⟨s0, rest, rfl⟩
  simp only [trainStep, add_sequence, if_neg hlt, List.head?]
  rw [List.mem_insert_iff, mem_trainLoop_snd]
  have hd : ((s0 :: rest).drop 1).take ((s0 :: rest).length - 1) = rest := by
    simp
  rw [hd]
  simp only [List.mem_cons]
  tauto

theorem cnt_short (order : ℕ) (seq : List T) (c : List T) (s : T)
    (h : seq.length < 2) : cnt order seq c s = 0 := by
  unfold cnt
  cases seq with
  | nil => simp
  | cons a l =>
      cases l with
      | nil =>
          have h1 : List.range 1 = [0] := rfl
          simp [h1, cntAt_zero]
      | cons b l' =>
          simp only [List.length_cons] at h
          omega

theorem trainStep_weightOf (m : MultiMarkovModel T) (seq : List T) (c : List T) (s : T) :
    weightOf (trainStep m seq).frequencies c s =
      if cnt m.order seq c s = 0 then weightOf m.frequencies c s
      else some ((weightOf m.frequencies c s).getD 0 + cnt m.order seq c s) := by
  by_cases h : 2 ≤ seq.length
  · rw [trainStep_frequencies m seq h, weightOf_applyTrans]
    have hlen : seq.length - 1 + 1 = seq.length := by omega
    rw [count_transList, hlen]
    rfl
  · have hcnt : cnt m.order seq c s = 0 := cnt_short _ _ _ _ (by omega)
    rw [trainStep_short m seq (by omega), hcnt]
    simp

theorem trainStep_isSome (m : MultiMarkovModel T) (seq : List T) (c : List T) :
    (alookup (trainStep m seq).frequencies c).isSome ↔
      (alookup m.frequencies c).isSome ∨ ∃ s, 0 < cnt m.order seq c s := by
  by_cases h : 2 ≤ seq.length
  · rw [trainStep_frequencies m seq h, alookup_applyTrans_isSome]
    apply or_congr_right
    apply exists_congr
    intro s
    rw [← List.count_pos_iff, count_transList]
    have hlen : seq.length - 1 + 1 = seq.length := by omega
    rw [hlen]
    rfl
  · have hstep : trainStep m seq = m := trainStep_short m seq (by omega)
    rw [hstep]
    have : ∀ s : T, cnt m.order seq c s = 0 := fun s => cnt_short _ _ _ _ (by omega)
    simp [this]

/-! Effect of add_priors on the nested lookups. -/

theorem alookup_fillDist (L : List T) (d : Dist T) (v : ℚ) (s : T) :
    alookup (fillDist d L v) s =
      match alookup d s with
      | some w => some w
      | none => if s ∈ L then some v else none := by
  induction L generalizing d with
  | nil => cases h : alookup d s <;> simp [fillDist, h]
  | cons a L ih =>
      have hstep : fillDist d (a :: L) v
          = fillDist (updateEntry d a (fun w? => w?.getD v)) L v := rfl
      rw [hstep, ih]
      by_cases hs : s = a
      · subst hs
        rw [alookup_updateEntry_self]
        cases h : alookup d s <;> simp [h]
      · rw [alookup_updateEntry_ne _ _ _ _ hs]
        cases h : alookup d s <;> simp [h, hs]

theorem mem_fillDist_of_mem (L : List T) (d : Dist T) (v : ℚ) (p : T × ℚ)
    (hp : p ∈ d) : p ∈ fillDist d L v := by
  induction L generalizing d with
  | nil => exact hp
  | cons a L ih => exact ih _ (mem_updateEntry_keep (fun w => rfl) hp)

theorem mem_fillDist (L : List T) (d : Dist T) (v : ℚ) (p : T × ℚ)
    (hp : p ∈ fillDist d L v) : p ∈ d ∨ p.2 = v := by
  induction L generalizing d with
  | nil => exact Or.inl hp
  | cons a L ih =>
      rcases ih _ hp with h | h
      · rcases mem_updateEntry h with h1 | h1
        · cases hl : alookup d a with
          | none =>
              right
              simp [h1, hl]
          | some w =>
              left
              rw [h1, hl]
              exact alookup_mem hl
        · exact Or.inl h1
      · exact Or.inr h

theorem alookup_add_priors (m : MultiMarkovModel T) (prior : ℚ) (c : List T) :
    alookup (add_priors m prior).frequencies c
      = (alookup m.frequencies c).map (fun d => fillDist d m.known_states prior) := by
  show alookup (m.frequencies.map fun p => (p.1, fillDist p.2 m.known_states prior)) c = _
  induction m.frequencies with
  | nil => simp [alookup]
  | cons p rest ih =>
      obtain ⟨k', d'⟩ := p
      by_cases hc : c = k' <;> simp [alookup, hc, ih]

theorem add_priors_isSome (m : MultiMarkovModel T) (prior : ℚ) (c : List T) :
    (alookup (add_priors m prior).frequencies c).isSome
      ↔ (alookup m.frequencies c).isSome := by
  rw [alookup_add_priors]
  cases alookup m.frequencies c <;> simp

theorem add_priors_weightOf (m : MultiMarkovModel T) (prior : ℚ) (c : List T) (s : T) :
    weightOf (add_priors m prior).frequencies c s =
      match weightOf m.frequencies c s with
      | some w => some w
      | none =>
          if (alookup m.frequencies c).isSome ∧ s ∈ m.known_states
          then some prior else none := by
  unfold weightOf
  rw [alookup_add_priors]
  cases hc : alookup m.frequencies c with
  | none => simp
  | some d =>
      simp only [Option.map_some', Option.some_bind]
      rw [alookup_fillDist]
      cases hd : alookup d s with
      | some w => simp
      | none => by_cases hs : s ∈ m.known_states <;> simp [hs]

theorem mem_add_priors_frequencies (m : MultiMarkovModel T) (prior : ℚ)
    (p : List T × Dist T) (hp : p ∈ (add_priors m prior).frequencies) :
    ∃ q ∈ m.frequencies, p.1 = q.1 ∧
      (∀ e ∈ p.2, e ∈ q.2 ∨ e.2 = prior) ∧ (∀ e ∈ q.2, e ∈ p.2) := by
  rcases List.mem_map.mp hp with ⟨q, hq, hpq⟩
  refine ⟨q, hq, ?_, ?_, ?_⟩
  · rw [← hpq]
  · intro e he
    rw [← hpq] at he
    exact mem_fillDist _ _ _ _ he
  · intro e he
    rw [← hpq]
    exact mem_fillDist_of_mem _ _ _ _ he

/-! Characterisation of the backoff lookup. -/

theorem bestModelLoop_eq_none (ft : FreqTable T) (q : List T) :
    ∀ n : ℕ, (bestModelLoop ft q n = none ↔
      ∀ i, 1 ≤ i → i ≤ n → alookup ft (q.drop (q.length - i)) = none)
  | 0 => by
      constructor
      · intro _ i h1 h2
        omega
      · intro _
        rfl
  | (n+1) => by
      cases hl : alookup ft (q.drop (q.length - (n+1))) with
      | some d =>
          simp only [bestModelLoop, hl]
          constructor
          · intro h
            exact absurd h (by simp)
          · intro hall
            rw [hall (n+1) (by omega) (by omega)] at hl
            exact absurd hl (by simp)
      | none =>
          simp only [bestModelLoop, hl]
          rw [bestModelLoop_eq_none ft q n]
          constructor
          · intro hall i h1 h2
            by_cases hi : i = n + 1
            · rw [hi]; exact hl
            · exact hall i h1 (by omega)
          · intro hall i h1 h2
            exact hall i h1 (by omega)

theorem bestModelLoop_eq_some (ft : FreqTable T) (q : List T) :
    ∀ (n : ℕ) (d : Dist T), (bestModelLoop ft q n = some d ↔
      ∃ i, 1 ≤ i ∧ i ≤ n ∧ alookup ft (q.drop (q.length - i)) = some d ∧
        ∀ j, i < j → j ≤ n → alookup ft (q.drop (q.length - j)) = none)
  | 0, d => by
      constructor
      · intro h
        exact absurd h (by simp [bestModelLoop])
      · rintro ⟨i, h1, h2, _⟩
        omega
  | (n+1), d => by
      cases hl : alookup ft (q.drop (q.length - (n+1))) with
      | some d' =>
          simp only [bestModelLoop, hl, Option.some.injEq]
          constructor
          · rintro rfl
            exact ⟨n+1, by omega, le_rfl, hl, fun j hj1 hj2 => by omega⟩
          · rintro ⟨i, h1, h2, hsome, hnone⟩
            by_cases hi : i = n + 1
            · rw [hi] at hsome
              rw [hsome] at hl
              injection hl with h
              exact h.symm
            · rw [hnone (n+1) (by omega) le_rfl] at hl
              injection hl
      | none =>
          simp only [bestModelLoop, hl]
          rw [bestModelLoop_eq_some ft q n d]
          constructor
          · rintro ⟨i, h1, h2, hsome, hnone⟩
            refine ⟨i, h1, by omega, hsome, fun j hj1 hj2 => ?_⟩
            by_cases hj : j = n + 1
            · rw [hj]; exact hl
            · exact hnone j hj1 (by omega)
          · rintro ⟨i, h1, h2, hsome, hnone⟩
            by_cases hi : i = n + 1
            · rw [hi] at hsome
              rw [hsome] at hl
              injection hl
            · exact ⟨i, h1, by omega, hsome, fun j hj1 hj2 => hnone j hj1 (by omega)⟩

theorem best_model_some_mem (m : MultiMarkovModel T) (q : List T) (d : Dist T)
    (h : best_model m q = some d) : ∃ c, alookup m.frequencies c = some d := by
  rcases (bestModelLoop_eq_some m.frequencies q _ d).mp h with ⟨i, _, _, hsome, _⟩
  exact ⟨_, hsome⟩

/-! random_next returns none exactly when the backoff lookup fails or the
roulette walk exhausts the distribution. -/

theorem random_next_none_iff (m : MultiMarkovModel T) (q : List T) (r : ℚ) :
    random_next m q r = none ↔
      best_model m q = none ∨
      ∃ d, best_model m q = some d ∧
        rouletteWalk d (r * sum_of_weights d) = none := by
  unfold random_next
  cases h : best_model m q <;> simp [h]

theorem ModelEquiv.refl (m : MultiMarkovModel T) : ModelEquiv m m :=
  ⟨rfl, fun _ => Iff.rfl, fun _ => Iff.rfl, fun _ _ => rfl⟩

theorem ModelEquiv.trans {m₁ m₂ m₃ : MultiMarkovModel T}
    (h₁ : ModelEquiv m₁ m₂) (h₂ : ModelEquiv m₂ m₃) : ModelEquiv m₁ m₃ :=
  ⟨h₁.1.trans h₂.1,
   fun a => (h₁.2.1 a).trans (h₂.2.1 a),
   fun c => (h₁.2.2.1 c).trans (h₂.2.2.1 c),
   fun c s => (h₁.2.2.2 c s).trans (h₂.2.2.2 c s)⟩

theorem trainStep_congr {m₁ m₂ : MultiMarkovModel T} (h : ModelEquiv m₁ m₂)
    (s : List T) : ModelEquiv (trainStep m₁ s) (trainStep m₂ s) := by
  obtain ⟨ho, hk, hp, hw⟩ := h
  refine ⟨?_, ?_, ?_, ?_⟩
  · rw [trainStep_order, trainStep_order, ho]
  · intro a
    by_cases hlen : 2 ≤ s.length
    · rw [mem_trainStep_known_states _ _ hlen, mem_trainStep_known_states _ _ hlen, hk a]
    · rw [trainStep_short _ _ (by omega), trainStep_short _ _ (by omega)]
      exact hk a
  · intro c
    rw [trainStep_isSome, trainStep_isSome, ho, hp c]
  · intro c s'
    rw [trainStep_weightOf, trainStep_weightOf, ho, hw c s']

theorem trainStep_comm (m : MultiMarkovModel T) (a b : List T) :
    ModelEquiv (trainStep (trainStep m a) b) (trainStep (trainStep m b) a) := by
  have hoa : (trainStep m a).order = m.order := trainStep_order m a
  have hob : (trainStep m b).order = m.order := trainStep_order m b
  refine ⟨?_, ?_, ?_, ?_⟩
  · simp [trainStep_order]
  · intro x
    by_cases ha : 2 ≤ a.length <;> by_cases hb : 2 ≤ b.length
    · rw [mem_trainStep_known_states _ b hb, mem_trainStep_known_states m a ha,
          mem_trainStep_known_states _ a ha, mem_trainStep_known_states m b hb]
      tauto
    · rw [trainStep_short (trainStep m a) b (by omega), trainStep_short m b (by omega)]
    · rw [trainStep_short m a (by omega), trainStep_short (trainStep m b) a (by omega)]
    · rw [trainStep_short (trainStep m a) b (by omega), trainStep_short m a (by omega),
          trainStep_short (trainStep m b) a (by omega), trainStep_short m b (by omega)]
  · intro c
    rw [trainStep_isSome, trainStep_isSome, trainStep_isSome, trainStep_isSome,
        hoa, hob]
    tauto
  · intro c s
    rw [trainStep_weightOf, trainStep_weightOf, trainStep_weightOf,
        trainStep_weightOf, hoa, hob]
    by_cases h1 : cnt m.order a c s = 0 <;> by_cases h2 : cnt m.order b c s = 0
    · simp [h1, h2]
    · simp [h1, h2]
    · simp [h1, h2]
    · simp only [if_neg h1, if_neg h2, Option.getD_some, Option.some.injEq]
      ring

theorem foldTrain_congr (L : List (List T)) :
    ∀ m₁ m₂ : MultiMarkovModel T, ModelEquiv m₁ m₂ →
      ModelEquiv (L.foldl trainStep m₁) (L.foldl trainStep m₂) := by
  induction L with
  | nil => intro m₁ m₂ h; exact h
  | cons s L ih =>
      intro m₁ m₂ h
      exact ih _ _ (trainStep_congr h s)

theorem foldTrain_perm {L₁ L₂ : List (List T)} (h : L₁.Perm L₂) :
    ∀ m : MultiMarkovModel T,
      ModelEquiv (L₁.foldl trainStep m) (L₂.foldl trainStep m) := by
  induction h with
  | nil => intro m; exact ModelEquiv.refl _
  | cons x h ih => intro m; exact ih (trainStep m x)
  | swap x y l => intro m; exact foldTrain_congr l _ _ (trainStep_comm m y x)
  | trans h₁ h₂ ih₁ ih₂ => intro m; exact (ih₁ m).trans (ih₂ m)

theorem add_sequences_ok (m : MultiMarkovModel T) (L : List (List T))
    (m' : MultiMarkovModel T) (h : add_sequences m L = Except.ok m') :
    m' = L.foldl trainStep m := by
  unfold add_sequences at h
  by_cases hL : L.length < 1
  · rw [if_pos hL] at h
    exact absurd h (by simp)
  · rw [if_neg hL] at h
    injection h with h1
    exact h1.symm

theorem TableOK_addTransition (ft : FreqTable T) (c : List T) (s : T)
    (h : TableOK ft) : TableOK (addTransition ft c s) := by
  have hd0 : DistOK ((alookup ft c).getD []) ∨ (alookup ft c).getD [] = [] := by
    cases hft : alookup ft c with
    | none => exact Or.inr rfl
    | some d => exact Or.inl (h (c, d) (alookup_mem hft))
  have hnn : ∀ e ∈ (alookup ft c).getD [], (0:ℚ) ≤ e.2 := by
    intro e he
    rcases hd0 with hok | hnil
    · exact hok.1 e he
    · rw [hnil] at he
      cases he
  have hgd : (0:ℚ) ≤ (alookup ((alookup ft c).getD []) s).getD 0 := by
    cases hs : alookup ((alookup ft c).getD []) s with
    | none => simp
    | some w => simpa using hnn (s, w) (alookup_mem hs)
  intro p hp
  rcases mem_updateEntry hp with h1 | h1
  · rw [h1]
    constructor
    · intro e he
      rcases mem_updateEntry he with h2 | h2
      · rw [h2]
        simpa using by positivity
      · exact hnn e h2
    · refine ⟨(s, (alookup ((alookup ft c).getD []) s).getD 0 + 1),
        alookup_mem (alookup_updateEntry_self _ _ _), ?_⟩
      simpa using by linarith
  · exact h p h1

theorem TableOK_applyTrans (L : List (List T × T)) :
    ∀ ft : FreqTable T, TableOK ft → TableOK (applyTrans ft L) := by
  induction L with
  | nil => intro ft h; exact h
  | cons p L ih =>
      intro ft h
      exact ih _ (TableOK_addTransition ft p.1 p.2 h)

theorem TableOK_trainStep (m : MultiMarkovModel T) (s : List T)
    (h : TableOK m.frequencies) : TableOK (trainStep m s).frequencies := by
  by_cases hl : 2 ≤ s.length
  · rw [trainStep_frequencies m s hl]
    exact TableOK_applyTrans _ _ h
  · rw [trainStep_short m s (by omega)]
    exact h

theorem TableOK_add_priors (m : MultiMarkovModel T) (prior : ℚ)
    (hpr : 0 ≤ prior) (h : TableOK m.frequencies) :
    TableOK (add_priors m prior).frequencies := by
  intro p hp
  rcases mem_add_priors_frequencies m prior p hp with ⟨q, hq, _, hsub, hsup⟩
  have hdq := h q hq
  constructor
  · intro e he
    rcases hsub e he with h1 | h1
    · exact hdq.1 e h1
    · rw [h1]
      exact hpr
  · rcases hdq.2 with ⟨e, he, he1⟩
    exact ⟨e, hsup e he, he1⟩

theorem foldTrain_order (L : List (List T)) :
    ∀ m : MultiMarkovModel T, (L.foldl trainStep m).order = m.order := by
  induction L with
  | nil => intro m; rfl
  | cons s L ih =>
      intro m
      rw [List.foldl_cons, ih (trainStep m s), trainStep_order]

theorem TableOK_foldTrain (L : List (List T)) :
    ∀ m : MultiMarkovModel T, TableOK m.frequencies →
      TableOK ((L.foldl trainStep m)).frequencies := by
  induction L with
  | nil => intro m h; exact h
  | cons s L ih =>
      intro m h
      exact ih (trainStep m s) (TableOK_trainStep m s h)

theorem Reachable_TableOK {P : ℚ → Prop} (hP : ∀ p, P p → 0 ≤ p)
    {m : MultiMarkovModel T} (h : Reachable P m) : TableOK m.frequencies := by
  induction h with
  | base =>
      intro p hp
      cases hp
  | train m s _ ih => exact TableOK_trainStep m s ih
  | batch m L m' _ hok ih =>
      rw [add_sequences_ok m L m' hok]
      exact TableOK_foldTrain L m ih
  | smooth m prior _ hpr ih => exact TableOK_add_priors m prior (hP prior hpr) ih

theorem KeysOK_trainStep (m : MultiMarkovModel T) (s : List T)
    (h : KeysOK m.frequencies m.order) :
    KeysOK (trainStep m s).frequencies m.order := by
  by_cases hl : 2 ≤ s.length
  · rw [trainStep_frequencies m s hl]
    intro p hp
    rcases mem_applyTrans _ _ _ hp with h1 | ⟨q, hq, hkey⟩
    · exact h p h1
    · obtain ⟨qc, qs⟩ := q
      have := mem_transList m.order s qc qs _ hq
      rw [hkey]
      exact this
  · rw [trainStep_short m s (by omega)]
    exact h

theorem KeysOK_add_priors (m : MultiMarkovModel T) (prior : ℚ)
    (h : KeysOK m.frequencies m.order) :
    KeysOK (add_priors m prior).frequencies m.order := by
  intro p hp
  rcases mem_add_priors_frequencies m prior p hp with ⟨q, hq, hkey, _, _⟩
  rw [hkey]
  exact h q hq

theorem KeysOK_foldTrain (L : List (List T)) :
    ∀ m : MultiMarkovModel T, KeysOK m.frequencies m.order →
      KeysOK ((L.foldl trainStep m)).frequencies (L.foldl trainStep m).order := by
  induction L with
  | nil => intro m h; exact h
  | cons s L ih =>
      intro m h
      apply ih (trainStep m s)
      rw [trainStep_order m s]
      exact KeysOK_trainStep m s h

theorem Reachable_KeysOK {P : ℚ → Prop} {m : MultiMarkovModel T}
    (h : Reachable P m) : KeysOK m.frequencies m.order := by
  induction h with
  | base =>
      intro p hp
      cases hp
  | train m s _ ih =>
      rw [show (trainStep m s).order = m.order from trainStep_order m s]
      exact KeysOK_trainStep m s ih
  | batch m L m' _ hok ih =>
      rw [add_sequences_ok m L m' hok]
      exact KeysOK_foldTrain L m ih
  | smooth m prior _ _ ih => exact KeysOK_add_priors m prior ih

theorem sum_pos_of_DistOK (d : Dist T) (h : DistOK d) : 0 < sum_of_weights d := by
  obtain ⟨hnn, e, he, he1⟩ := h
  have hmem : e.2 ∈ d.map Prod.snd := List.mem_map_of_mem Prod.snd he
  have hle : e.2 ≤ (d.map Prod.snd).sum := by
    apply List.single_le_sum _ _ hmem
    intro x hx
    rcases List.mem_map.mp hx with ⟨p, hp, hpx⟩
    rw [← hpx]
    exact hnn p hp
  unfold sum_of_weights
  linarith

/-! Claim theorems. -/

/-- C1: for every model and query, best_model returns some d exactly when
d is the distribution of the longest suffix of the query with length in
[1, min(order, query length)] present as a key of the frequency table
(every longer candidate suffix absent), and returns none exactly when no
suffix of any such length is a key.  best_model is a pure function of the
model (the source signature takes &self), so the call never mutates the
model. -/
theorem claim_C1 (m : MultiMarkovModel T) (q : List T) :
    (∀ d, best_model m q = some d ↔
      ∃ i, 1 ≤ i ∧ i ≤ min m.order q.length ∧
        alookup m.frequencies (q.drop (q.length - i)) = some d ∧
        ∀ j, i < j → j ≤ min m.order q.length →
          alookup m.frequencies (q.drop (q.length - j)) = none) ∧
    (best_model m q = none ↔
      ∀ i, 1 ≤ i → i ≤ min m.order q.length →
        alookup m.frequencies (q.drop (q.length - i)) = none) :=
  ⟨fun d => bestModelLoop_eq_some m.frequencies q _ d,
   bestModelLoop_eq_none m.frequencies q _⟩

theorem claim_C1_witness : best_model mC1 [5, 0] = some [(1, 1)] := by
  apply ((claim_C1 mC1 [5, 0]).1 [(1, 1)]).mpr
  refine ⟨1, le_rfl, by decide, by decide, ?_⟩
  intro j hj1 hj2
  have hj : j = 2 := by
    simp only [mC1, List.length_cons, List.length_nil] at hj2
    omega
  rw [hj]
  decide

/-- C2: for every sequence of length at least 2, add_sequence succeeds
and produces the model in which the weight of every pair (ctx, sym) grows
by exactly cnt, the number of pairs (i, k) with i a position from the last
index down to 1 and k a context length in [1, min(order, i)] such that
ctx = sequence[i-k..i] and sym = sequence[i] (absent entries start from
0); a context key is present afterwards exactly when it was present
before or received an increment; known_states afterwards holds exactly
the previous known states and every symbol of the sequence (including the
first); the order does not change. -/
theorem claim_C2 (m : MultiMarkovModel T) (seq : List T) (h : 2 ≤ seq.length) :
    ∃ m', add_sequence m seq = Except.ok m' ∧
      (∀ c s, weightOf m'.frequencies c s =
        if cnt m.order seq c s = 0 then weightOf m.frequencies c s
        else some ((weightOf m.frequencies c s).getD 0 + cnt m.order seq c s)) ∧
      (∀ c, (alookup m'.frequencies c).isSome ↔
        (alookup m.frequencies c).isSome ∨ ∃ s, 0 < cnt m.order seq c s) ∧
      (∀ a, a ∈ m'.known_states ↔ a ∈ m.known_states ∨ a ∈ seq) ∧
      m'.order = m.order :=
  ⟨trainStep m seq, add_sequence_eq_ok m seq h,
   fun c s => trainStep_weightOf m seq c s,
   fun c => trainStep_isSome m seq c,
   fun a => mem_trainStep_known_states m seq h a,
   trainStep_order m seq⟩

theorem claim_C2_witness :
    2 ≤ ([5, 0, 1] : List ℕ).length ∧
    ∃ m', add_sequence (new : MultiMarkovModel ℕ) [5, 0, 1] = Except.ok m' ∧
      (∀ c s, weightOf m'.frequencies c s =
        if cnt (new : MultiMarkovModel ℕ).order [5, 0, 1] c s = 0
        then weightOf (new : MultiMarkovModel ℕ).frequencies c s
        else some ((weightOf (new : MultiMarkovModel ℕ).frequencies c s).getD 0
          + cnt (new : MultiMarkovModel ℕ).order [5, 0, 1] c s)) ∧
      (∀ c, (alookup m'.frequencies c).isSome ↔
        (alookup (new : MultiMarkovModel ℕ).frequencies c).isSome ∨
          ∃ s, 0 < cnt (new : MultiMarkovModel ℕ).order [5, 0, 1] c s) ∧
      (∀ a, a ∈ m'.known_states ↔
        a ∈ (new : MultiMarkovModel ℕ).known_states ∨ a ∈ [5, 0, 1]) ∧
      m'.order = (new : MultiMarkovModel ℕ).order :=
  ⟨by decide, claim_C2 new [5, 0, 1] (by decide)⟩

/-- C3: for every model and nonnegative prior, add_priors creates or
removes no context keys, leaves every present weight unchanged, writes
the prior exactly at the pairs of a present context and a known state
whose entry was missing, gives every present context an entry for every
known state, leaves absent the entries of symbols outside known_states,
and changes neither known_states nor the order. -/
theorem claim_C3 (m : MultiMarkovModel T) (prior : ℚ) (hpr : 0 ≤ prior) :
    (∀ c, (alookup (add_priors m prior).frequencies c).isSome ↔
      (alookup m.frequencies c).isSome) ∧
    (∀ c s w, weightOf m.frequencies c s = some w →
      weightOf (add_priors m prior).frequencies c s = some w) ∧
    (∀ c s, (alookup m.frequencies c).isSome → s ∈ m.known_states →
      weightOf m.frequencies c s = none →
      weightOf (add_priors m prior).frequencies c s = some prior) ∧
    (∀ c, (alookup (add_priors m prior).frequencies c).isSome →
      ∀ s ∈ m.known_states, (weightOf (add_priors m prior).frequencies c s).isSome) ∧
    (∀ c s, weightOf m.frequencies c s = none → s ∉ m.known_states →
      weightOf (add_priors m prior).frequencies c s = none) ∧
    (add_priors m prior).known_states = m.known_states ∧
    (add_priors m prior).order = m.order := by
  refine ⟨add_priors_isSome m prior, ?_, ?_, ?_, ?_, rfl, rfl⟩
  · intro c s w hw
    rw [add_priors_weightOf, hw]
  · intro c s hsome hmem hnone
    rw [add_priors_weightOf, hnone]
    simp [hsome, hmem]
  · intro c hsome s hmem
    rw [add_priors_weightOf]
    cases hw : weightOf m.frequencies c s with
    | some w => simp
    | none =>
        rw [add_priors_isSome] at hsome
        simp [hsome, hmem]
  · intro c s hnone hmem
    rw [add_priors_weightOf, hnone]
    simp [hmem]

theorem claim_C3_witness :
    (0:ℚ) ≤ 1 ∧
    ((∀ c, (alookup (add_priors mC1 1).frequencies c).isSome ↔
      (alookup mC1.frequencies c).isSome) ∧
    (∀ c s w, weightOf mC1.frequencies c s = some w →
      weightOf (add_priors mC1 1).frequencies c s = some w) ∧
    (∀ c s, (alookup mC1.frequencies c).isSome → s ∈ mC1.known_states →
      weightOf mC1.frequencies c s = none →
      weightOf (add_priors mC1 1).frequencies c s = some 1) ∧
    (∀ c, (alookup (add_priors mC1 1).frequencies c).isSome →
      ∀ s ∈ mC1.known_states, (weightOf (add_priors mC1 1).frequencies c s).isSome) ∧
    (∀ c s, weightOf mC1.frequencies c s = none → s ∉ mC1.known_states →
      weightOf (add_priors mC1 1).frequencies c s = none) ∧
    (add_priors mC1 1).known_states = mC1.known_states ∧
    (add_priors mC1 1).order = mC1.order) :=
  ⟨by norm_num, claim_C3 mC1 1 (by norm_num)⟩

/-- C4: a sequence of length 0 or 1 is rejected by add_sequence with the
SequenceTooShort error and the model is left unchanged. -/
theorem claim_C4 (m : MultiMarkovModel T) (seq : List T) (h : seq.length < 2) :
    add_sequence m seq
      = Except.error "sequence was too short, must contain at least two states" ∧
    trainStep m seq = m :=
  ⟨add_sequence_short m seq h, trainStep_short m seq h⟩

theorem claim_C4_witness :
    ([] : List ℕ).length < 2 ∧
    (add_sequence (new : MultiMarkovModel ℕ) []
      = Except.error "sequence was too short, must contain at least two states" ∧
    trainStep (new : MultiMarkovModel ℕ) [] = new) :=
  ⟨by decide, claim_C4 new [] (by decide)⟩

/-- C5 counterexample: on a model whose table holds an empty distribution
for context [0] (constructible through the public frequencies field), the
query [0] makes best_model find a context, yet the roulette walk exhausts
the distribution and random_next returns none, the very value used for
absence, with a legal draw r = 0 in [0,1).  So the exhaustion case is not
an outcome distinguishable from absence, and none is not returned exactly
when best_model finds no matching context. -/
theorem claim_C5_counterexample :
    (0:ℚ) ≤ 0 ∧ (0:ℚ) < 1 ∧
    best_model exhaustModel [0] = some [] ∧
    rouletteWalk ([] : Dist ℕ) (0 * sum_of_weights ([] : Dist ℕ)) = none ∧
    random_next exhaustModel [0] 0 = none :=
  ⟨le_rfl, by norm_num, rfl, rfl, rfl⟩

/-- C5 (amended): when the roulette-wheel walk exhausts all entries of the
chosen distribution, random_next returns none, the same value as the
absence result: random_next returns none exactly when best_model finds no
matching context or the walk over the found distribution exhausts it. -/
theorem claim_C5_amended (m : MultiMarkovModel T) (q : List T) (r : ℚ) :
    random_next m q r = none ↔
      best_model m q = none ∨
      ∃ d, best_model m q = some d ∧
        rouletteWalk d (r * sum_of_weights d) = none :=
  random_next_none_iff m q r

theorem claim_C5_witness : random_next exhaustModel [1] 0 = none :=
  (claim_C5_amended exhaustModel [1] 0).mpr (Or.inl rfl)

/-- C6: every model reachable from a newly constructed model by any
succession of add_sequence, add_sequences and add_priors calls with any
inputs has only context keys of length between 1 and the model's order. -/
theorem claim_C6 (m : MultiMarkovModel T) (h : Reachable (fun _ => True) m) :
    ∀ p ∈ m.frequencies, 1 ≤ p.1.length ∧ p.1.length ≤ m.order :=
  Reachable_KeysOK h

theorem claim_C6_witness :
    1 ≤ ([0] : List ℕ).length ∧
    ([0] : List ℕ).length ≤ (trainStep (new : MultiMarkovModel ℕ) [5, 0, 1]).order :=
  claim_C6 _ (Reachable.train _ _ Reachable.base)
    ([0], [(1, (none : Option ℚ).getD 0 + 1)]) (alookup_mem rfl)

/-- C7: add_sequences fails with the EmptyBatch error exactly when the
batch is empty; a nonempty batch always succeeds, the result being the
left fold of the single-sequence training step over the batch, and a
too-short sequence inside the batch leaves the model unchanged at its
step without aborting the rest of the fold. -/
theorem claim_C7 (m : MultiMarkovModel T) (seqs : List (List T)) :
    (add_sequences m seqs = Except.error "no sequences in input" ↔ seqs = []) ∧
    (seqs ≠ [] → add_sequences m seqs = Except.ok (seqs.foldl trainStep m)) ∧
    (∀ s, s.length < 2 → ∀ mm : MultiMarkovModel T, trainStep mm s = mm) := by
  refine ⟨⟨?_, ?_⟩, ?_, fun s hs mm => trainStep_short mm s hs⟩
  · intro hh
    unfold add_sequences at hh
    by_cases h : seqs.length < 1
    · exact List.length_eq_zero.mp (by omega)
    · rw [if_neg h] at hh
      exact absurd hh (by simp)
  · rintro rfl
    rfl
  · intro hne
    have h : ¬ seqs.length < 1 := by
      cases seqs with
      | nil => exact absurd rfl hne
      | cons s L => simp
    unfold add_sequences
    rw [if_neg h]
    rfl

theorem claim_C7_witness :
    add_sequences (new : MultiMarkovModel ℕ) []
      = Except.error "no sequences in input" :=
  ((claim_C7 new []).1).mpr rfl

/-- C8 counterexample: the claim lets the caller choose the order, but the
source constructor takes no order argument, so no construction realizes
the spec constructor at a caller choice of order 5: new (the only
constructor) differs from newSpec (some 5), having order 3, not 5. -/
theorem claim_C8_counterexample :
    (new : MultiMarkovModel ℕ) ≠ newSpec (some 5) ∧
    (newSpec (some 5) : MultiMarkovModel ℕ).order = 5 ∧
    (new : MultiMarkovModel ℕ).order = 3 := by
  refine ⟨?_, rfl, rfl⟩
  decide

/-- C8 (amended): construction produces an empty model (empty
FrequencyTable, empty KnownStates) with order 3, agreeing with the spec
constructor at the default; the constructor takes no order parameter, so
the caller cannot choose an order and the default 3 always applies. -/
theorem claim_C8 :
    (new : MultiMarkovModel T) = newSpec none ∧
    (new : MultiMarkovModel T).frequencies = [] ∧
    (new : MultiMarkovModel T).known_states = [] ∧
    (new : MultiMarkovModel T).order = 3 :=
  ⟨rfl, rfl, rfl, rfl⟩

/-- C9: starting from one model, training on a batch of sequences yields,
for every ordering of the batch, the same frequency table and known
states (as maps and sets, which is HashMap and HashSet equality) and the
same order; and training two sequences that each contain the
context-to-symbol transition ([0], 1) once yields weight 2 for that
pair. -/
theorem claim_C9 :
    (∀ (U : Type) [DecidableEq U] (m : MultiMarkovModel U)
        (L₁ L₂ : List (List U)), L₁.Perm L₂ →
        ModelEquiv (L₁.foldl trainStep m) (L₂.foldl trainStep m)) ∧
    weightOf ((([[5, 0, 1], [2, 0, 1, 9]] : List (List ℕ)).foldl trainStep
        new).frequencies) [0] 1 = some 2 := by
  constructor
  · intro U _ m L₁ L₂ h
    exact foldTrain_perm h m
  · show weightOf
      (trainStep (trainStep new [5, 0, 1]) [2, 0, 1, 9]).frequencies [0] 1 = some 2
    rw [trainStep_weightOf, trainStep_order]
    have hc2 : cnt (new : MultiMarkovModel ℕ).order [2, 0, 1, 9] [0] 1 = 1 := by decide
    have hc1 : cnt (new : MultiMarkovModel ℕ).order [5, 0, 1] [0] 1 = 1 := by decide
    rw [hc2, trainStep_weightOf, hc1]
    have h0 : weightOf (new : MultiMarkovModel ℕ).frequencies [0] 1 = none := rfl
    rw [h0]
    norm_num

theorem claim_C9_witness :
    ModelEquiv (([[0, 1], [1, 2]] : List (List ℕ)).foldl trainStep new)
      (([[1, 2], [0, 1]] : List (List ℕ)).foldl trainStep new) :=
  claim_C9.1 ℕ new [[0, 1], [1, 2]] [[1, 2], [0, 1]] (List.Perm.swap _ _ _)

/-- C10: in every model reachable from a newly constructed model by
add_sequence, add_sequences and add_priors calls with nonnegative priors,
every stored distribution is nonempty and holds some symbol of weight at
least 1, so the sum of weights random_next computes over any distribution
returned by best_model is strictly positive. -/
theorem claim_C10 (m : MultiMarkovModel T) (h : Reachable (fun p => 0 ≤ p) m) :
    (∀ c d, alookup m.frequencies c = some d → d ≠ [] ∧ ∃ p ∈ d, 1 ≤ p.2) ∧
    (∀ q d, best_model m q = some d → 0 < sum_of_weights d) := by
  have htab : TableOK m.frequencies := Reachable_TableOK (fun p hp => hp) h
  constructor
  · intro c d hd
    have hdok : DistOK d := htab (c, d) (alookup_mem hd)
    obtain ⟨hnn, e, he, he1⟩ := hdok
    refine ⟨?_, e, he, he1⟩
    intro hnil
    rw [hnil] at he
    cases he
  · intro q d hbm
    rcases best_model_some_mem m q d hbm with ⟨c, hc⟩
    exact sum_pos_of_DistOK d (htab (c, d) (alookup_mem hc))

theorem claim_C10_witness :
    (∀ c d, alookup (trainStep (new : MultiMarkovModel ℕ) [5, 0, 1]).frequencies c
        = some d → d ≠ [] ∧ ∃ p ∈ d, 1 ≤ p.2) ∧
    (∀ q d, best_model (trainStep (new : MultiMarkovModel ℕ) [5, 0, 1]) q = some d →
      0 < sum_of_weights d) :=
  claim_C10 _ (Reachable.train _ _ Reachable.base)

end MultiMarkov
